import Mathlib

/-!
Shallow embedding of the session-sampling and exemplar-selection core of
`util.py` (classes `Sampler` and `ExemplarGenerator`), together with proofs
of the specified properties.

Conventions of the embedding:
* sessions are `List ℕ` of item identifiers; the padding sentinel is `0`;
* real-valued model outputs (embeddings, logits, losses) are `ℚ`;
* the process-wide pseudo-random generator is made explicit: shuffled index
  orders, permutations and uniform variates are passed as parameters;
* Python `session[:-t]` is `List.take (session.length - t)`;
* the float step bound `1.1 * m` of the herding loop is the exact rational
  `11 * m / 10`, i.e. the loop guard `step_t < 1.1 * m` is `10 * step < 11 * m`.
-/

namespace ADER

/-! ### Sampler (util.py lines 109-275) -/

/-- `Sampler.__init__`, lines 135-141: one full session followed by its
truncations `session[:-t]` for `t = 1 .. length - 2` (guarded by `length > 2`). -/
def expandSession (s : List ℕ) : List (List ℕ) :=
  s :: (if 2 < s.length then
    (List.range (s.length - 2)).map (fun i => s.take (s.length - (i + 1)))
  else [])

/-- `Sampler.__init__`, lines 134-144: the prepared pool; with `is_subseq`
every session is appended unchanged, otherwise each session is expanded. -/
def preparedData (is_subseq : Bool) (data : List (List ℕ)) : List (List ℕ) :=
  if is_subseq then data else data.flatMap expandSession

/-- The write loop of `Sampler.label_generator`, lines 163-167: items of the
reversed context are written at positions `idx = maxlen-1, maxlen-2, ...`;
after writing at position `0` the loop breaks (`idx == -1`). -/
def writeLoop : List ℕ → List ℕ → ℕ → List ℕ
  | [], seq, _ => seq
  | itemId :: rest, seq, idx =>
    if idx = 0 then seq.set idx itemId
    else writeLoop rest (seq.set idx itemId) (idx - 1)

/-- `Sampler.label_generator`, lines 149-169: split a sub-sequence into the
zero-initialised array of length `maxlen` filled right-to-left from the
reversed context `session[:-1]`, and the label `session[-1]`. -/
def label_generator (maxlen : ℕ) (session : List ℕ) : List ℕ × ℕ :=
  (writeLoop session.dropLast.reverse (List.replicate maxlen 0) (maxlen - 1),
   session.getLastD 0)

/-- `Sampler.batch_num`, line 275: `ceil(pool_size / batch_size)`. -/
def batchNum (pool_len batch_size : ℕ) : ℕ :=
  (pool_len + batch_size - 1) / batch_size

/-- `Sampler.sampler`, lines 221-230: one batch. Position `i + bc * bs` of the
shuffled index order `indices` selects a pool entry; sessions of length ≤ 1
are skipped; positions past the end of the pool produce nothing. -/
def oneBatch (maxlen batch_size batch_counter : ℕ) (pool : List (List ℕ))
    (indices : List ℕ) : List (List ℕ × ℕ) :=
  (List.range batch_size).filterMap (fun i =>
    if i + batch_counter * batch_size < pool.length then
      (fun session =>
        if session.length ≤ 1 then none
        else some (label_generator maxlen session))
      (pool.getD (indices.getD (i + batch_counter * batch_size) 0) [])
    else none)

/-- `Sampler.add_exemplar`, lines 171-184: exemplar sessions are appended to
the pool while `self.logits` is reset to exactly the exemplars' logits.
Returns (new pool, new logits list). -/
def addExemplar (pool : List (List ℕ)) (exemplar : List (List ℕ × List ℚ)) :
    List (List ℕ) × List (List ℚ) :=
  (pool ++ exemplar.map Prod.fst, exemplar.map Prod.snd)

/-- `Sampler.exemplar_sampler`, lines 244-254: like `oneBatch` but each kept
entry also carries `logits[index]` for the same pool index. -/
def exemplarBatch (maxlen batch_size batch_counter : ℕ) (pool : List (List ℕ))
    (logits : List (List ℚ)) (indices : List ℕ) : List (List ℕ × ℕ × List ℚ) :=
  (List.range batch_size).filterMap (fun i =>
    if i + batch_counter * batch_size < pool.length then
      (fun index =>
        (fun session =>
          if session.length ≤ 1 then none
          else some ((label_generator maxlen session).1,
                     (label_generator maxlen session).2,
                     logits.getD index []))
        (pool.getD index []))
      (indices.getD (i + batch_counter * batch_size) 0)
    else none)

/-- `np.round`: round half to even, as used by `Sampler.split_data` line 203. -/
def npRound (q : ℚ) : ℤ :=
  if q - ⌊q⌋ < 1 / 2 then ⌊q⌋
  else if 1 / 2 < q - ⌊q⌋ then ⌊q⌋ + 1
  else if Even ⌊q⌋ then ⌊q⌋ else ⌊q⌋ + 1

/-- `Sampler.split_data`, lines 186-214: `sidx` is the shuffled permutation of
pool positions; the first `n_train = round(size * (1 - valid_portion))` of it
index the training subset, the rest the validation subset; the pool is
replaced by the training subset.  Returns (valid, train, new pool). -/
def splitData (pool : List (List ℕ)) (valid_portion : ℚ) (sidx : List ℕ) :
    List (List ℕ) × List (List ℕ) × List (List ℕ) :=
  (fun n_train =>
    ((sidx.drop n_train).map (fun s => pool.getD s []),
     (sidx.take n_train).map (fun s => pool.getD s []),
     (sidx.take n_train).map (fun s => pool.getD s [])))
  ((npRound ((pool.length : ℚ) * (1 - valid_portion))).toNat)

/-- Right-alignment of a padded sequence: once a non-sentinel element occurs,
no sentinel occurs afterwards. -/
def rightAligned : List ℕ → Bool
  | [] => true
  | x :: xs => if x = 0 then rightAligned xs else xs.all (fun y => ¬ y = 0)

/-! ### ExemplarGenerator: candidate collection (util.py lines 369-380) -/

/-- `ExemplarGenerator.__init__`, lines 370-375: all batches of one epoch of
the internal `Sampler(data, is_subseq=True)`. -/
def epochPairs (maxlen batch_size : ℕ) (data : List (List ℕ))
    (indices : List ℕ) : List (List ℕ × ℕ) :=
  (List.range (batchNum (preparedData true data).length batch_size)).flatMap
    (fun bc => oneBatch maxlen batch_size bc (preparedData true data) indices)

/-- `ExemplarGenerator.__init__`, lines 377-380: each batched pair is stored as
`np.append(seq, item)` keyed by its label `item`. -/
def exgenPairs (maxlen batch_size : ℕ) (data : List (List ℕ))
    (indices : List ℕ) : List (List ℕ × ℕ) :=
  (epochPairs maxlen batch_size data indices).map (fun sp => (sp.1 ++ [sp.2], sp.2))

/-- `self.sess_by_item[item]`, line 379. -/
def sessByItem (maxlen batch_size : ℕ) (data : List (List ℕ))
    (indices : List ℕ) (item : ℕ) : List (List ℕ) :=
  (exgenPairs maxlen batch_size data indices).filterMap
    (fun sp => if sp.2 = item then some sp.1 else none)

/-- `self.item_count[item - 1]` after the collection loop, line 380: the
number of collected pairs whose label is `item`. -/
def itemCountAt (maxlen batch_size : ℕ) (data : List (List ℕ))
    (indices : List ℕ) (item : ℕ) : ℕ :=
  (exgenPairs maxlen batch_size data indices).countP (fun sp => sp.2 = item)

/-- The frequency vector `self.item_count` (indexed by `item - 1`), line 366
and 380, as rational numbers ready for normalization. -/
def itemFreqVec (maxlen batch_size : ℕ) (data : List (List ℕ))
    (indices : List ℕ) (max_item : ℕ) : List ℚ :=
  (List.range max_item).map
    (fun j => (itemCountAt maxlen batch_size data indices (j + 1) : ℚ))

/-! ### ExemplarGenerator: budget allocation (util.py lines 382-387) -/

/-- Line 385: `item_prob = self.item_count / self.item_count.sum()`.
Rational division by zero is total (yields 0); the Python analogue is a
silent float `0/0 = NaN`. -/
def itemProb (counts : List ℚ) : List ℚ :=
  counts.map (fun c => c / counts.sum)

/-- Inverse-CDF draw of one category: the first index whose cumulative
probability exceeds the uniform variate `u`, clamped to the last category.
Models one trial of `np.random.multinomial` (an external library call). -/
def categorical : List ℚ → ℚ → ℕ
  | [], _ => 0
  | [_], _ => 0
  | p :: q :: ps, u => if u < p then 0 else categorical (q :: ps) (u - p) + 1

/-- Occurrence counts of each category `0 .. k-1` in a list of draws. -/
def tallyCounts (k : ℕ) (cats : List ℕ) : List ℕ :=
  (List.range k).map (fun j => cats.count j)

/-- `np.random.multinomial(n, pvals)[0]` with the randomness `us` (one uniform
variate per trial) made explicit: the per-category tallies of the trials. -/
def multinomialDraw (pvals : List ℚ) (us : List ℚ) : List ℕ :=
  tallyCounts pvals.length (us.map (categorical pvals))

/-- Lines 383-387: the per-item quota table; frequencies are replaced by ones
when `disable_m`, normalized, and a single multinomial sample of size `m`
(`us.length` variates) is drawn. -/
def quotaDraw (counts : List ℚ) (disable_m : Bool) (us : List ℚ) : List ℕ :=
  multinomialDraw (itemProb (if disable_m then List.replicate counts.length 1 else counts)) us

/-! ### ExemplarGenerator: herding (util.py lines 389-436) -/

/-- Componentwise sum of two vectors. -/
def vadd (v w : List ℚ) : List ℚ := List.zipWith (· + ·) v w

/-- Componentwise difference of two vectors. -/
def vsub (v w : List ℚ) : List ℚ := List.zipWith (· - ·) v w

/-- Scalar multiple of a vector. -/
def vsmul (c : ℚ) (v : List ℚ) : List ℚ := v.map (fun x => c * x)

/-- Dot product (`np.dot(w_t, D)` applies this to every column of `D`). -/
def dotQ (v w : List ℚ) : ℚ := (List.zipWith (· * ·) v w).sum

/-- `D.mean(axis=1)`, line 400: the mean of the (already L2-normalized)
embedding columns; `E` lists the columns of `D`. -/
def vmean (E : List (List ℚ)) : List ℚ :=
  vsmul (1 / (E.length : ℚ)) (E.foldr vadd (List.replicate (E.headD []).length 0))

/-- `np.argmax` auxiliary: scan remembering the first maximal value. -/
def argmaxGo : List ℚ → ℕ → ℕ → ℚ → ℕ
  | [], _, best, _ => best
  | x :: xs, i, best, bestVal =>
    if bestVal < x then argmaxGo xs (i + 1) i x else argmaxGo xs (i + 1) best bestVal

/-- `np.argmax`, line 407: index of the first occurrence of the maximum. -/
def argmaxList : List ℚ → ℕ
  | [] => 0
  | x :: xs => argmaxGo xs 1 0 x

/-- The while loop of `ExemplarGenerator.herding`, lines 405-412, translated
from the source: while fewer than `m` ids are selected and `step_t < 1.1 * m`,
compute the dot products of `w_t` with every column, take the global argmax,
update `w_t = w_t + mu - D[:, ind_max]`, and append `ind_max` to the selection
only when it is not already selected.  The loop guard bounds the iteration
count, so the structural fuel (`11 * m` at entry, see `herdingGo_fuel`) never
runs out. -/
def herdingGo (E : List (List ℚ)) (mu : List ℚ) (m : ℕ) :
    ℕ → List ℚ → ℕ → List ℕ → List ℕ
  | 0, _, _, sel => sel
  | fuel + 1, w, step, sel =>
    if ¬ sel.length = m ∧ 10 * step < 11 * m then
      herdingGo E mu m fuel
        (vsub (vadd w mu) (E.getD (argmaxList (E.map (fun e => dotQ w e))) []))
        (step + 1)
        (if argmaxList (E.map (fun e => dotQ w e)) ∈ sel then sel
         else sel ++ [argmaxList (E.map (fun e => dotQ w e))])
    else sel

/-- Lines 399-412: the selected ids of `herding`, starting from `w_t = mu`,
`step_t = 0`, no ids selected. -/
def herding_ids (E : List (List ℚ)) (m : ℕ) : List ℕ :=
  herdingGo E (vmean E) m (11 * m) (vmean E) 0 []

/-- `seq[seq != 0]`, lines 413, 459, 483: strip the padding sentinel. -/
def stripZeros (s : List ℕ) : List ℕ := s.filter (fun x => ¬ x = 0)

/-- Line 413: the exemplar store written by `herding` for one item. -/
def herdingStore (E : List (List ℚ)) (logits : List (List ℚ))
    (seqs : List (List ℕ)) (m : ℕ) : List (List ℕ × List ℚ) :=
  (herding_ids E m).map (fun i => (stripZeros (seqs.getD i []), logits.getD i []))

/-- `herding_selection`, lines 416-434, for one item: the per-item quota is
capped by the number of candidate sessions (`min(m, len(seq))`, line 433). -/
def herdingSelection (quota : ℕ) (E : List (List ℚ)) (logits : List (List ℚ))
    (seqs : List (List ℕ)) : List (List ℕ × List ℚ) :=
  herdingStore E logits seqs (min quota seqs.length)

/-- Reference loop for the amended description of the herding step: identical
to the source loop — global argmax (first maximal index), unconditional weight
update, id appended only when new, same step bound. -/
def herdingRefGo (E : List (List ℚ)) (mu : List ℚ) (m : ℕ) :
    ℕ → List ℚ → ℕ → List ℕ → List ℕ
  | 0, _, _, sel => sel
  | fuel + 1, w, step, sel =>
    if ¬ sel.length = m ∧ 10 * step < 11 * m then
      herdingRefGo E mu m fuel
        (vsub (vadd w mu) (E.getD (argmaxList (E.map (fun e => dotQ w e))) []))
        (step + 1)
        (if argmaxList (E.map (fun e => dotQ w e)) ∈ sel then sel
         else sel ++ [argmaxList (E.map (fun e => dotQ w e))])
    else sel

/-- Entry point of the amended reference loop. -/
def herdingRef_ids (E : List (List ℚ)) (m : ℕ) : List ℕ :=
  herdingRefGo E (vmean E) m (11 * m) (vmean E) 0 []

/-- The first not-yet-selected index with maximal dot product, as the claim
words the selection step ("the argmax not yet selected, ties broken by lowest
index"); auxiliary scan over the remaining candidates. -/
def claimArgmaxGo (tmp : List ℚ) : List ℕ → ℕ → ℕ
  | [], best => best
  | c :: cs, best =>
    if tmp.getD best 0 < tmp.getD c 0 then claimArgmaxGo tmp cs c
    else claimArgmaxGo tmp cs best

/-- The claimed selection step: argmax restricted to unselected indices. -/
def claimArgmax (tmp : List ℚ) (sel : List ℕ) : ℕ :=
  match (List.range tmp.length).filter (fun i => ¬ i ∈ sel) with
  | [] => 0
  | c :: cs => claimArgmaxGo tmp cs c

/-- The herding loop exactly as the claim describes it: at each step pick the
argmax *not yet selected*, add it to the selection, update the weight with the
selected embedding. -/
def herdingClaimGo (E : List (List ℚ)) (mu : List ℚ) (m : ℕ) :
    ℕ → List ℚ → ℕ → List ℕ → List ℕ
  | 0, _, _, sel => sel
  | fuel + 1, w, step, sel =>
    if ¬ sel.length = m ∧ 10 * step < 11 * m then
      herdingClaimGo E mu m fuel
        (vsub (vadd w mu) (E.getD (claimArgmax (E.map (fun e => dotQ w e)) sel) []))
        (step + 1)
        (sel ++ [claimArgmax (E.map (fun e => dotQ w e)) sel])
    else sel

/-- Entry point of the claimed loop. -/
def herdingClaim_ids (E : List (List ℚ)) (m : ℕ) : List ℕ :=
  herdingClaimGo E (vmean E) m (11 * m) (vmean E) 0 []

/-! ### ExemplarGenerator: loss-ranking and random selection (lines 438-486) -/

/-- `loss.argsort()`, line 458: indices of an ascending sort of the loss
vector (stable: equal losses keep index order). -/
def argsortQ (losses : List ℚ) : List ℕ :=
  List.insertionSort (fun i j => losses.getD i 0 ≤ losses.getD j 0)
    (List.range losses.length)

/-- `loss_selection`, lines 444-459, for one item: items with `m < 0.5` are
skipped; otherwise the first `min(m, seq_num)` indices of the ascending loss
sort are stored. -/
def lossSelection (quota : ℕ) (losses : List ℚ) (logits : List (List ℚ))
    (seqs : List (List ℕ)) : List (List ℕ × List ℚ) :=
  if quota < 1 then []
  else ((argsortQ losses).take (min quota seqs.length)).map
    (fun i => (stripZeros (seqs.getD i []), logits.getD i []))

/-- `randomly_selection`, lines 469-484, for one item: when the quota is
positive, `np.random.choice(seq_num, min(m, seq_num), replace=False)` — the
first `min(m, seq_num)` entries of a random permutation `perm` of the
candidate positions — are stored. -/
def randomSelection (quota : ℕ) (perm : List ℕ) (logits : List (List ℚ))
    (seqs : List (List ℕ)) : List (List ℕ × List ℚ) :=
  if 0 < quota then
    (perm.take (min quota seqs.length)).map
      (fun i => (stripZeros (seqs.getD i []), logits.getD i []))
  else []

/-! ### Helper lemmas -/

theorem herdingGo_length_le (E : List (List ℚ)) (mu : List ℚ) (m : ℕ) :
    ∀ (fuel : ℕ) (w : List ℚ) (step : ℕ) (sel : List ℕ), sel.length ≤ m →
      (herdingGo E mu m fuel w step sel).length ≤ m := by
  intro fuel
  induction fuel with
  | zero => intro w step sel h; simpa [herdingGo] using h
  | succ f ih =>
    intro w step sel h
    simp only [herdingGo]
    split
    · rename_i hc
      apply ih
      split
      · exact h
      · simp only [List.length_append, List.length_cons, List.length_nil]
        omega
    · exact h

theorem length_filterMap_ifPairs (l : List (List ℕ × ℕ)) (item : ℕ) :
    (l.filterMap (fun sp => if sp.2 = item then some sp.1 else none)).length
      = l.countP (fun sp => sp.2 = item) := by
  induction l with
  | nil => rfl
  | cons a l ih =>
    by_cases h : a.2 = item <;>
      simp [List.filterMap_cons, List.countP_cons, h, ih]

/-! ### C2: sub-sequence expansion -/

/-- C2: for a session of length `L > 2` the expander emits exactly `L - 1`
entries — the full session and every strict prefix of length at least 2 — and
for `L ≤ 2` it emits exactly the session itself; with `is_subseq` every
session is emitted unchanged. -/
theorem subsequence_expansion_spec :
    ∀ (data : List (List ℕ)) (s : List ℕ),
      (expandSession s).length = (if 2 < s.length then s.length - 1 else 1) ∧
      (∀ x, x ∈ expandSession s ↔
        (x = s ∨ (2 ≤ x.length ∧ x.length < s.length ∧ x = s.take x.length))) ∧
      (s.length ≤ 2 → expandSession s = [s]) ∧
      preparedData true data = data := by
  intro data s
  refine ⟨?_, ?_, ?_, rfl⟩
  · by_cases h : 2 < s.length
    · simp [expandSession, h]
      omega
    · simp [expandSession, h]
  · intro x
    by_cases h : 2 < s.length
    · simp only [expandSession, if_pos h, List.mem_cons, List.mem_map,
        List.mem_range]
      constructor
      · rintro (rfl | ⟨i, hi, rfl⟩)
        · exact Or.inl rfl
        · have hlen : (s.take (s.length - (i + 1))).length = s.length - (i + 1) := by
            rw [List.length_take]; omega
          refine Or.inr ⟨?_, ?_, ?_⟩
          · rw [hlen]; omega
          · rw [hlen]; omega
          · rw [hlen]
      · rintro (rfl | ⟨h2, hlt, heq⟩)
        · exact Or.inl rfl
        · refine Or.inr ⟨s.length - x.length - 1, by omega, ?_⟩
          have he : s.length - (s.length - x.length - 1 + 1) = x.length := by omega
          rw [he, ← heq]
    · simp only [expandSession, if_neg h, List.mem_cons, List.not_mem_nil,
        or_false]
      constructor
      · intro hx; exact Or.inl hx
      · rintro (rfl | ⟨h2, hlt, _⟩)
        · rfl
        · omega
  · intro h
    have h2 : ¬ 2 < s.length := by omega
    simp [expandSession, h2]

/-- C2 witness: a length-3 session yields two entries; a length-2 session is
emitted alone. -/
theorem subsequence_expansion_spec_witness :
    (expandSession [1, 2, 3]).length = 2 ∧ expandSession [2, 7] = [[2, 7]] := by
  have h := subsequence_expansion_spec [] [1, 2, 3]
  have h' := subsequence_expansion_spec [] [2, 7]
  exact ⟨by simpa using h.1, h'.2.2.1 (by decide)⟩

/-! ### C4: per-item exemplar count bound -/

/-- C4: for each of the three selection strategies, the exemplars stored for
one item never exceed `min(quota, number of candidate sessions)`. -/
theorem exemplar_count_le_min :
    ∀ (quota : ℕ) (E : List (List ℚ)) (logits : List (List ℚ))
      (seqs : List (List ℕ)) (losses : List ℚ) (perm : List ℕ),
      (herdingSelection quota E logits seqs).length ≤ min quota seqs.length ∧
      (lossSelection quota losses logits seqs).length ≤ min quota seqs.length ∧
      (randomSelection quota perm logits seqs).length ≤ min quota seqs.length := by
  intro quota E logits seqs losses perm
  refine ⟨?_, ?_, ?_⟩
  · unfold herdingSelection herdingStore herding_ids
    rw [List.length_map]
    exact herdingGo_length_le _ _ _ _ _ _ _ (by simp)
  · unfold lossSelection
    split
    · simp
    · rw [List.length_map, List.length_take]
      exact min_le_left _ _
  · unfold randomSelection
    split
    · rw [List.length_map, List.length_take]
      exact min_le_left _ _
    · simp

/-! ### C10: candidate pools keyed by label -/

/-- C10: every candidate session stored under `item` ends with `item`, and the
pre-multinomial frequency entry for `item` equals the number of stored
sessions. -/
theorem sess_by_item_invariant :
    ∀ (maxlen batch_size : ℕ) (data : List (List ℕ)) (indices : List ℕ)
      (item : ℕ),
      itemCountAt maxlen batch_size data indices item
        = (sessByItem maxlen batch_size data indices item).length ∧
      ∀ s ∈ sessByItem maxlen batch_size data indices item,
        s.getLast? = some item := by
  intro maxlen bs data indices item
  constructor
  · rw [sessByItem, itemCountAt, length_filterMap_ifPairs]
  · intro s hs
    rw [sessByItem, List.mem_filterMap] at hs
    obtain ⟨sp, hsp, hif⟩ := hs
    rw [exgenPairs, List.mem_map] at hsp
    obtain ⟨q, hqmem, rfl⟩ := hsp
    simp only at hif
    split at hif
    · rename_i h
      obtain rfl := Option.some_inj.mp hif
      simp [h]
    · exact absurd hif (by simp)

/-- C10 witness: with two sessions labelled 2, both stored sessions end in 2
and the frequency entry is 2. -/
theorem sess_by_item_invariant_witness :
    [0, 0, 1, 2] ∈ sessByItem 3 2 [[1, 2], [3, 2]] [0, 1] 2 ∧
    ([0, 0, 1, 2] : List ℕ).getLast? = some 2 ∧
    itemCountAt 3 2 [[1, 2], [3, 2]] [0, 1] 2
      = (sessByItem 3 2 [[1, 2], [3, 2]] [0, 1] 2).length := by
  have h := sess_by_item_invariant 3 2 [[1, 2], [3, 2]] [0, 1] 2
  have hmem : [0, 0, 1, 2] ∈ sessByItem 3 2 [[1, 2], [3, 2]] [0, 1] 2 := by decide
  exact ⟨hmem, h.2 _ hmem, h.1⟩

/-! ### C3: quota table sums to the budget -/

theorem categorical_lt : ∀ (pv : List ℚ) (u : ℚ), pv ≠ [] →
    categorical pv u < pv.length
  | [], _, h => absurd rfl h
  | [_], _, _ => by simp [categorical]
  | p :: q :: ps, u, _ => by
    simp only [categorical]
    split
    · simp
    · have ih := categorical_lt (q :: ps) (u - p) (by simp)
      simp only [List.length_cons] at ih ⊢
      omega

theorem sum_map_add (l : List ℕ) (f g : ℕ → ℕ) :
    (l.map (fun j => f j + g j)).sum = (l.map f).sum + (l.map g).sum := by
  induction l with
  | nil => rfl
  | cons a l ih =>
    simp only [List.map_cons, List.sum_cons, ih]
    omega

theorem sum_ite_range_zero : ∀ (k c : ℕ), k ≤ c →
    ((List.range k).map (fun j => if c = j then 1 else 0)).sum = 0 := by
  intro k
  induction k with
  | zero => intro c _; rfl
  | succ n ih =>
    intro c hc
    rw [List.range_succ, List.map_append, List.sum_append]
    have h1 : ¬ c = n := by omega
    simp [ih c (by omega), h1]

theorem sum_ite_range_one : ∀ (k c : ℕ), c < k →
    ((List.range k).map (fun j => if c = j then 1 else 0)).sum = 1 := by
  intro k
  induction k with
  | zero => intro c hc; omega
  | succ n ih =>
    intro c hc
    rw [List.range_succ, List.map_append, List.sum_append]
    by_cases h : c = n
    · subst h
      simp [sum_ite_range_zero c c le_rfl]
    · simp [ih c (by omega), h]

theorem tally_sum : ∀ (cats : List ℕ) (k : ℕ), (∀ c ∈ cats, c < k) →
    (tallyCounts k cats).sum = cats.length := by
  intro cats
  induction cats with
  | nil => intro k _; simp [tallyCounts]
  | cons c cs ih =>
    intro k h
    have hc : c < k := h c (by simp)
    have hpt : ∀ j ∈ List.range k,
        (c :: cs).count j = (if c = j then 1 else 0) + cs.count j := by
      intro j _
      by_cases h' : j = c
      · subst h'
        simp [List.count_cons]
        omega
      · have h'' : ¬ c = j := fun hcj => h' hcj.symm
        simp [List.count_cons, h', h'']
    unfold tallyCounts
    rw [List.map_congr_left hpt, sum_map_add, sum_ite_range_one k c hc]
    have ih' := ih k (fun x hx => h x (List.mem_cons_of_mem c hx))
    unfold tallyCounts at ih'
    rw [ih']
    simp
    omega

/-- C3: for a nonzero frequency vector, the per-item quota table drawn at
construction (multinomial of size `m`, or over the uniform vector when
`disable_m`) consists of non-negative integers summing exactly to `m`. -/
theorem quota_sum_eq_budget :
    ∀ (m : ℕ) (counts : List ℚ) (disable_m : Bool) (us : List ℚ),
      counts ≠ [] → counts.sum ≠ 0 → us.length = m →
      (quotaDraw counts disable_m us).sum = m ∧
      ∀ q ∈ quotaDraw counts disable_m us, 0 ≤ q := by
  intro m counts dm us hne hsum hus
  constructor
  · have hlen : (itemProb (if dm then List.replicate counts.length 1 else counts)).length
        = counts.length := by
      cases dm <;> simp [itemProb]
    have hpne : itemProb (if dm then List.replicate counts.length 1 else counts) ≠ [] := by
      intro h0
      have := congrArg List.length h0
      rw [hlen] at this
      simp only [List.length_nil] at this
      exact hne (List.length_eq_zero.mp this)
    unfold quotaDraw multinomialDraw
    rw [tally_sum _ _ ?_, List.length_map, hus]
    intro c hc
    rw [List.mem_map] at hc
    obtain ⟨u, _, rfl⟩ := hc
    exact categorical_lt _ u hpne
  · intro q _
    exact Nat.zero_le q

/-- C3 witness: budget 3 over frequencies [2, 1] with three uniform draws. -/
theorem quota_sum_eq_budget_witness :
    ([2, 1] : List ℚ) ≠ [] ∧ ([2, 1] : List ℚ).sum ≠ 0 ∧
    (quotaDraw [2, 1] false [0, 1/2, 9/10]).sum = 3 := by
  have h := quota_sum_eq_budget 3 [2, 1] false [0, 1/2, 9/10]
    (by simp) (by norm_num) (by simp)
  exact ⟨by simp, by norm_num, h.1⟩

/-! ### C1: the herding selection loop -/

/-- The structural fuel of `herdingGo` is only a termination device: any two
fuels large enough for the loop guard (`step_t < 1.1 * m`) to fail first give
the same result, so `herding_ids`' entry fuel `11 * m` is faithful to the
source `while` loop. -/
theorem herdingGo_fuel (E : List (List ℚ)) (mu : List ℚ) (m : ℕ) :
    ∀ (f g : ℕ) (w : List ℚ) (step : ℕ) (sel : List ℕ),
      11 * m ≤ 10 * step + f → 11 * m ≤ 10 * step + g →
      herdingGo E mu m f w step sel = herdingGo E mu m g w step sel := by
  intro f g w step sel hf hg
  induction f generalizing g w step sel with
  | zero =>
    cases g with
    | zero => rfl
    | succ g' =>
      simp only [herdingGo]
      rw [if_neg (fun hcon => absurd hcon.2 (by omega))]
  | succ f' ih =>
    cases g with
    | zero =>
      simp only [herdingGo]
      rw [if_neg (fun hcon => absurd hcon.2 (by omega))]
    | succ g' =>
      simp only [herdingGo]
      by_cases hc : ¬ sel.length = m ∧ 10 * step < 11 * m
      · rw [if_pos hc, if_pos hc]
        exact ih g' _ _ _ (by omega) (by omega)
      · rw [if_neg hc, if_neg hc]

theorem herdingGo_nodup (E : List (List ℚ)) (mu : List ℚ) (m : ℕ) :
    ∀ (fuel : ℕ) (w : List ℚ) (step : ℕ) (sel : List ℕ), sel.Nodup →
      (herdingGo E mu m fuel w step sel).Nodup := by
  intro fuel
  induction fuel with
  | zero => intro w step sel h; simpa [herdingGo] using h
  | succ f ih =>
    intro w step sel h
    simp only [herdingGo]
    split
    · apply ih
      split
      · exact h
      · rename_i hnotmem
        simp [List.nodup_append, h, hnotmem]
    · exact h

theorem herdingGo_eq_ref (E : List (List ℚ)) (mu : List ℚ) (m : ℕ) :
    ∀ (fuel : ℕ) (w : List ℚ) (step : ℕ) (sel : List ℕ),
      herdingGo E mu m fuel w step sel = herdingRefGo E mu m fuel w step sel := by
  intro fuel
  induction fuel with
  | zero => intro w step sel; rfl
  | succ f ih =>
    intro w step sel
    simp only [herdingGo, herdingRefGo]
    by_cases hc : ¬ sel.length = m ∧ 10 * step < 11 * m
    · rw [if_pos hc, if_pos hc]
      exact ih _ _ _
    · rw [if_neg hc, if_neg hc]

/-- C1 counterexample: on the unit embeddings `[1], [1], [-1]` (the
L2-normalizations of e.g. `[2], [3], [-5]`) with quota `m = 3`, the source
loop selects only `[0, 2]` — at step 3 the global argmax is the already
selected index 0, so nothing is added although the weight updates — while the
loop described by the claim (argmax restricted to unselected indices) would
select `[0, 2, 1]`. -/
theorem herding_picks_global_argmax_cex :
    herding_ids [[1], [1], [-1]] 3 = [0, 2] ∧
    herdingClaim_ids [[1], [1], [-1]] 3 = [0, 2, 1] ∧
    ¬ herding_ids [[1], [1], [-1]] 3 = herdingClaim_ids [[1], [1], [-1]] 3 := by
  have h1 : herding_ids [[1], [1], [-1]] 3 = [0, 2] := by
    norm_num [herding_ids, herdingGo, vmean, vsmul, vadd, vsub, dotQ,
      argmaxList, argmaxGo, List.getD]
  have h2 : herdingClaim_ids [[1], [1], [-1]] 3 = [0, 2, 1] := by
    norm_num [herdingClaim_ids, herdingClaimGo, claimArgmax, claimArgmaxGo,
      vmean, vsmul, vadd, vsub, dotQ, List.getD, List.range_succ_eq_map,
      List.range_zero]
  refine ⟨h1, h2, ?_⟩
  rw [h1, h2]
  decide

/-- C1 amended: at each step the loop computes the dot product of the weight
with every embedding and picks the *global* argmax (ties broken by lowest
index); the weight update `w + mu - embedding_of_argmax` happens at every
step, but the index is added to the selection only when not already selected;
the loop stops once `m` distinct indices are selected or `1.1 * m` steps have
elapsed, so the selection holds distinct indices, possibly fewer than `m` and
never more. -/
theorem herding_loop_amended :
    ∀ (E : List (List ℚ)) (m : ℕ),
      herding_ids E m = herdingRef_ids E m ∧
      (herding_ids E m).Nodup ∧
      (herding_ids E m).length ≤ m :=
  fun E m =>
    ⟨herdingGo_eq_ref E (vmean E) m (11 * m) (vmean E) 0 [],
     herdingGo_nodup E (vmean E) m (11 * m) (vmean E) 0 [] List.nodup_nil,
     herdingGo_length_le E (vmean E) m (11 * m) (vmean E) 0 [] (by simp)⟩

/-! ### C5: loss-ranking selection -/

theorem argsortQ_pairwise (losses : List ℚ) :
    (argsortQ losses).Pairwise (fun i j => losses.getD i 0 ≤ losses.getD j 0) := by
  letI : IsTotal ℕ (fun i j => losses.getD i 0 ≤ losses.getD j 0) :=
    ⟨fun a b => le_total _ _⟩
  letI : IsTrans ℕ (fun i j => losses.getD i 0 ≤ losses.getD j 0) :=
    ⟨fun a b c hab hbc => le_trans hab hbc⟩
  have h := List.sorted_insertionSort
    (fun i j : ℕ => losses.getD i 0 ≤ losses.getD j 0) (List.range losses.length)
  simpa [argsortQ, List.Sorted] using h

theorem argsortQ_perm (losses : List ℚ) :
    List.Perm (argsortQ losses) (List.range losses.length) :=
  List.perm_insertionSort _ _

/-- C5: loss-ranking stores exactly the `min(m, candidates)` lowest-loss
sessions (first indices of the ascending loss sort); items with quota below
0.5 (that is, quota 0) are skipped and contribute zero exemplars. -/
theorem loss_selection_lowest :
    ∀ (quota : ℕ) (losses : List ℚ) (logits : List (List ℚ))
      (seqs : List (List ℕ)),
      losses.length = seqs.length →
      (quota = 0 → lossSelection quota losses logits seqs = []) ∧
      (1 ≤ quota →
        (lossSelection quota losses logits seqs).length = min quota seqs.length ∧
        lossSelection quota losses logits seqs
          = ((argsortQ losses).take (min quota seqs.length)).map
              (fun i => (stripZeros (seqs.getD i []), logits.getD i [])) ∧
        (∀ i ∈ (argsortQ losses).take (min quota seqs.length),
          ∀ j, j < losses.length →
            j ∉ (argsortQ losses).take (min quota seqs.length) →
            losses.getD i 0 ≤ losses.getD j 0)) := by
  intro quota losses logits seqs hlen
  constructor
  · intro h0
    simp [lossSelection, h0]
  · intro h1
    have hnot : ¬ quota < 1 := by omega
    refine ⟨?_, ?_, ?_⟩
    · rw [lossSelection, if_neg hnot, List.length_map, List.length_take,
        (argsortQ_perm losses).length_eq, List.length_range, hlen]
      omega
    · rw [lossSelection, if_neg hnot]
    · intro i hi j hj hjn
      have hsor := argsortQ_pairwise losses
      have hsplit : argsortQ losses
          = (argsortQ losses).take (min quota seqs.length)
            ++ (argsortQ losses).drop (min quota seqs.length) :=
        (List.take_append_drop _ _).symm
      rw [hsplit] at hsor
      have hcross := (List.pairwise_append.mp hsor).2.2
      have hjmem : j ∈ argsortQ losses :=
        ((argsortQ_perm losses).mem_iff).mpr (List.mem_range.mpr hj)
      rw [hsplit, List.mem_append] at hjmem
      rcases hjmem with h | h
      · exact absurd h hjn
      · exact hcross i hi j h

/-- C5 witness: losses `[0.1, 0.5, 0.9]` with quota 2 select the two
lowest-loss sessions. -/
theorem loss_selection_lowest_witness :
    ([1/10, 1/2, 9/10] : List ℚ).length = ([[1], [2], [3]] : List (List ℕ)).length ∧
    (lossSelection 2 [1/10, 1/2, 9/10] [[5], [6], [7]] [[1], [2], [3]]).length
      = min 2 ([[1], [2], [3]] : List (List ℕ)).length ∧
    ((1 : ℚ)/10 ≤ 9/10) := by
  have h := loss_selection_lowest 2 [1/10, 1/2, 9/10] [[5], [6], [7]]
    [[1], [2], [3]] (by simp)
  have hi : (0 : ℕ) ∈ (argsortQ [1/10, 1/2, 9/10]).take
      (min 2 ([[1], [2], [3]] : List (List ℕ)).length) := by
    norm_num [argsortQ, List.insertionSort, List.orderedInsert,
      List.range_succ_eq_map, List.range_zero, List.getD]
  have hj : (2 : ℕ) ∉ (argsortQ [1/10, 1/2, 9/10]).take
      (min 2 ([[1], [2], [3]] : List (List ℕ)).length) := by
    norm_num [argsortQ, List.insertionSort, List.orderedInsert,
      List.range_succ_eq_map, List.range_zero, List.getD]
  have hlow := (h.2 (by norm_num)).2.2 0 hi 2 (by norm_num) hj
  refine ⟨by simp, (h.2 (by norm_num)).1, ?_⟩
  simpa [List.getD] using hlow

/-! ### C6: label_generator and the padding invariant -/

theorem set_replicate_append :
    ∀ (a x : ℕ) (tail : List ℕ),
      (List.replicate (a + 1) 0 ++ tail).set a x = List.replicate a 0 ++ x :: tail := by
  intro a
  induction a with
  | zero => intro x tail; rfl
  | succ n ih =>
    intro x tail
    have ih' := ih x tail
    simp only [List.replicate_succ, List.cons_append] at ih' ⊢
    rw [List.set_cons_succ, ih']

theorem writeLoop_closed :
    ∀ (rev : List ℕ) (a : ℕ) (tail : List ℕ), 1 ≤ a →
      writeLoop rev (List.replicate a 0 ++ tail) (a - 1)
        = List.replicate (a - min rev.length a) 0
          ++ (rev.take (min rev.length a)).reverse ++ tail := by
  intro rev
  induction rev with
  | nil =>
    intro a tail _
    simp [writeLoop]
  | cons x xs ih =>
    intro a tail ha
    by_cases ha1 : a = 1
    · subst ha1
      have hmin : min (x :: xs).length 1 = 1 := by
        simp only [List.length_cons]; omega
      have h0 := set_replicate_append 0 x tail
      simp only [writeLoop, if_pos rfl, hmin]
      simp only [Nat.zero_add] at h0
      simp [h0, List.take_succ_cons]
    · have ha2 : 2 ≤ a := by omega
      have hidx : ¬ a - 1 = 0 := by omega
      simp only [writeLoop, if_neg hidx]
      have hset : (List.replicate a 0 ++ tail).set (a - 1) x
          = List.replicate (a - 1) 0 ++ x :: tail := by
        have h := set_replicate_append (a - 1) x tail
        rw [show a - 1 + 1 = a from by omega] at h
        exact h
      rw [hset]
      have hih := ih (a - 1) (x :: tail) (by omega)
      rw [hih]
      obtain ⟨k', hk'⟩ : ∃ k', min (x :: xs).length a = k' + 1 :=
        ⟨min (x :: xs).length a - 1, by simp only [List.length_cons]; omega⟩
      simp only [List.length_cons] at hk'
      rw [List.length_cons, hk', List.take_succ_cons, List.reverse_cons]
      rw [show min xs.length (a - 1) = k' from by omega,
          show a - 1 - k' = a - (k' + 1) from by omega]
      simp [List.append_assoc]

theorem rightAligned_replicate_append :
    ∀ (a : ℕ) (l : List ℕ), (∀ x ∈ l, ¬ x = 0) →
      rightAligned (List.replicate a 0 ++ l) = true := by
  intro a
  induction a with
  | zero =>
    intro l hl
    cases l with
    | nil => rfl
    | cons x xs =>
      have hx : ¬ x = 0 := hl x (by simp)
      simp only [List.nil_append, rightAligned, if_neg hx, List.all_eq_true,
        decide_eq_true_eq]
      intro y hy
      exact hl y (List.mem_cons_of_mem x hy)
  | succ n ih =>
    intro l hl
    simp only [List.replicate_succ, List.cons_append, rightAligned, if_pos rfl]
    exact ih l hl

theorem getD_mem_or {α : Type} (l : List α) (i : ℕ) (d : α) :
    l.getD i d ∈ l ∨ l.getD i d = d := by
  by_cases h : i < l.length
  · left
    rw [List.getD_eq_getElem?_getD, List.getElem?_eq_getElem h]
    exact List.getElem_mem h
  · right
    rw [List.getD_eq_getElem?_getD, List.getElem?_eq_none (by omega)]
    rfl

theorem label_generator_core :
    ∀ (maxlen : ℕ) (session : List ℕ), 1 ≤ maxlen → session ≠ [] →
      (∀ x ∈ session, ¬ x = 0) →
      session.getLast? = some (label_generator maxlen session).2 ∧
      (label_generator maxlen session).1.length = maxlen ∧
      (label_generator maxlen session).1
        = List.replicate (maxlen - min (session.length - 1) maxlen) 0
          ++ (session.dropLast.reverse.take maxlen).reverse ∧
      rightAligned (label_generator maxlen session).1 = true := by
  intro maxlen session hml hne hpos
  have hclosed : (label_generator maxlen session).1
      = List.replicate (maxlen - min (session.length - 1) maxlen) 0
        ++ (session.dropLast.reverse.take maxlen).reverse := by
    show writeLoop session.dropLast.reverse (List.replicate maxlen 0) (maxlen - 1) = _
    have h0 := writeLoop_closed session.dropLast.reverse maxlen [] hml
    rw [List.append_nil, List.append_nil] at h0
    have hrevlen : session.dropLast.reverse.length = session.length - 1 := by
      simp [List.length_reverse, List.length_dropLast]
    rw [hrevlen] at h0
    rw [h0]
    have htake : session.dropLast.reverse.take (min (session.length - 1) maxlen)
        = session.dropLast.reverse.take maxlen := by
      apply List.take_eq_take.mpr
      rw [hrevlen]
      omega
    rw [htake]
  refine ⟨?_, ?_, hclosed, ?_⟩
  · cases hgl : session.getLast? with
    | none => exact absurd (List.getLast?_eq_none_iff.mp hgl) hne
    | some y =>
      show _ = some (session.getLastD 0)
      rw [List.getLastD_eq_getLast?, hgl]
      rfl
  · rw [hclosed]
    simp only [List.length_append, List.length_replicate, List.length_reverse,
      List.length_take, List.length_dropLast]
    omega
  · rw [hclosed]
    apply rightAligned_replicate_append
    intro x hx
    rw [List.mem_reverse] at hx
    have hx2 := List.mem_of_mem_take hx
    rw [List.mem_reverse] at hx2
    exact hpos x (List.dropLast_subset session hx2)

/-- C6: for every non-empty session of non-sentinel items, `label_generator`
returns the last element as the label and a `maxlen`-length array holding the
`min(len - 1, maxlen)` most recent preceding items right-aligned after a
block of sentinel padding; consequently every sequence in a batch produced by
the sampler is `maxlen` long and right-aligned (no sentinel after a
non-sentinel). -/
theorem label_generator_right_aligned :
    ∀ (maxlen : ℕ), 1 ≤ maxlen →
      (∀ (session : List ℕ), session ≠ [] → (∀ x ∈ session, ¬ x = 0) →
        session.getLast? = some (label_generator maxlen session).2 ∧
        (label_generator maxlen session).1.length = maxlen ∧
        (label_generator maxlen session).1
          = List.replicate (maxlen - min (session.length - 1) maxlen) 0
            ++ (session.dropLast.reverse.take maxlen).reverse ∧
        rightAligned (label_generator maxlen session).1 = true) ∧
      (∀ (batch_size batch_counter : ℕ) (pool : List (List ℕ))
        (indices : List ℕ),
        (∀ s ∈ pool, ∀ x ∈ s, ¬ x = 0) →
        ∀ p ∈ oneBatch maxlen batch_size batch_counter pool indices,
          p.1.length = maxlen ∧ rightAligned p.1 = true) := by
  intro maxlen hml
  constructor
  · intro session hne hpos
    exact label_generator_core maxlen session hml hne hpos
  · intro bs bc pool indices hall p hp
    simp only [oneBatch, List.mem_filterMap, List.mem_range] at hp
    obtain ⟨i, hi, hf⟩ := hp
    by_cases h1 : i + bc * bs < pool.length
    · rw [if_pos h1] at hf
      by_cases h2 : (pool.getD (indices.getD (i + bc * bs) 0) []).length ≤ 1
      · rw [if_pos h2] at hf
        exact absurd hf (by simp)
      · rw [if_neg h2] at hf
        obtain rfl := Option.some_inj.mp hf
        have hmem : pool.getD (indices.getD (i + bc * bs) 0) [] ∈ pool := by
          rcases getD_mem_or pool (indices.getD (i + bc * bs) 0) [] with h | h
          · exact h
          · rw [h] at h2
            simp at h2
        have hne : pool.getD (indices.getD (i + bc * bs) 0) [] ≠ [] := by
          intro h0
          rw [h0] at h2
          simp at h2
        have hc := label_generator_core maxlen _ hml hne (hall _ hmem)
        exact ⟨hc.2.1, hc.2.2.2⟩
    · rw [if_neg h1] at hf
      exact absurd hf (by simp)

/-- C6 witness: `maxlen = 3` on session `[1, 2]`. -/
theorem label_generator_right_aligned_witness :
    1 ≤ 3 ∧ (label_generator 3 [1, 2]).1.length = 3 ∧
    rightAligned (label_generator 3 [1, 2]).1 = true := by
  have h := (label_generator_right_aligned 3 (by decide)).1 [1, 2]
    (by decide) (by decide)
  exact ⟨by decide, h.2.1, h.2.2.2⟩

/-! ### C8: exemplar logits alignment -/

/-- C8 counterexample: on a Sampler whose pool already holds `[1, 2]`,
`add_exemplar [([3, 4], [7])]` leaves `logits = [[7]]` against a pool of two
sessions, and the first yielded tuple pairs the original session `[1, 2]`
(sequence `[0, 0, 1]`, label 2) with `[7]`, the logits supplied for the
different session `[3, 4]`. -/
theorem exemplar_logits_misaligned_cex :
    (addExemplar [[1, 2]] [([3, 4], [7])]).1 = [[1, 2], [3, 4]] ∧
    (addExemplar [[1, 2]] [([3, 4], [7])]).2 = [[7]] ∧
    (addExemplar [[1, 2]] [([3, 4], [7])]).2.length
      ≠ (addExemplar [[1, 2]] [([3, 4], [7])]).1.length ∧
    exemplarBatch 3 1 0 [[1, 2], [3, 4]] [[7]] [0] = [([0, 0, 1], 2, [7])] ∧
    ¬ ∃ se ∈ [([3, 4], ([7] : List ℚ))],
        (([0, 0, 1], 2, [7]) : List ℕ × ℕ × List ℚ)
          = ((label_generator 3 se.1).1, (label_generator 3 se.1).2, se.2) := by
  refine ⟨rfl, rfl, by simp [addExemplar], ?_, ?_⟩
  · simp [exemplarBatch, label_generator, writeLoop, List.getD, List.range_succ, List.range_zero]
  · rintro ⟨se, hse, heq⟩
    simp only [List.mem_singleton] at hse
    subst hse
    have h2 : (2 : ℕ) = (label_generator 3 [3, 4]).2 :=
      congrArg (fun t : List ℕ × ℕ × List ℚ => t.2.1) heq
    exact absurd h2 (by decide)

/-- C8 amended: `add_exemplar` resets `logits` to be index-aligned with the
sessions it appends, not with the whole pool; when the Sampler's pool was
empty before the call (as for a dedicated exemplar Sampler), the alignment
with `prepared_data` holds and every tuple yielded by `exemplar_sampler`
pairs a session with that same session's logits. -/
theorem exemplar_logits_aligned_when_pool_empty :
    ∀ (maxlen batch_size batch_counter : ℕ) (ex : List (List ℕ × List ℚ))
      (indices : List ℕ),
      (addExemplar [] ex).2.length = (addExemplar [] ex).1.length ∧
      ∀ p ∈ exemplarBatch maxlen batch_size batch_counter
          (addExemplar [] ex).1 (addExemplar [] ex).2 indices,
        ∃ se ∈ ex,
          p = ((label_generator maxlen se.1).1,
               (label_generator maxlen se.1).2, se.2) := by
  intro maxlen bs bc ex indices
  constructor
  · simp [addExemplar]
  · intro p hp
    simp only [exemplarBatch, addExemplar, List.nil_append, List.mem_filterMap,
      List.mem_range] at hp
    obtain ⟨i, hi, hf⟩ := hp
    by_cases h1 : i + bc * bs < (ex.map Prod.fst).length
    · rw [if_pos h1] at hf
      by_cases h2 :
          ((ex.map Prod.fst).getD (indices.getD (i + bc * bs) 0) []).length ≤ 1
      · rw [if_pos h2] at hf
        exact absurd hf (by simp)
      · rw [if_neg h2] at hf
        obtain rfl := Option.some_inj.mp hf
        have hidx : indices.getD (i + bc * bs) 0 < ex.length := by
          by_contra hge
          have hnil : (ex.map Prod.fst).getD (indices.getD (i + bc * bs) 0) [] = [] := by
            rw [List.getD_eq_getElem?_getD, List.getElem?_eq_none]
            · rfl
            · rw [List.length_map]; omega
          rw [hnil] at h2
          simp at h2
        refine ⟨ex[indices.getD (i + bc * bs) 0], List.getElem_mem hidx, ?_⟩
        have hfst : (ex.map Prod.fst).getD (indices.getD (i + bc * bs) 0) []
            = ex[indices.getD (i + bc * bs) 0].1 := by
          rw [List.getD_eq_getElem?_getD, List.getElem?_map,
            List.getElem?_eq_getElem hidx]
          rfl
        have hsnd : (ex.map Prod.snd).getD (indices.getD (i + bc * bs) 0) []
            = ex[indices.getD (i + bc * bs) 0].2 := by
          rw [List.getD_eq_getElem?_getD, List.getElem?_map,
            List.getElem?_eq_getElem hidx]
          rfl
        rw [hfst, hsnd]
    · rw [if_neg h1] at hf
      exact absurd hf (by simp)

/-- C8 witness: a Sampler built from an empty pool plus one exemplar yields
the exemplar's own logits alongside its session. -/
theorem exemplar_logits_aligned_when_pool_empty_witness :
    (([0, 0, 3], 4, [7]) : List ℕ × ℕ × List ℚ) ∈ exemplarBatch 3 1 0
        (addExemplar [] [([3, 4], [7])]).1 (addExemplar [] [([3, 4], [7])]).2 [0] ∧
    ∃ se ∈ [([3, 4], ([7] : List ℚ))],
      (([0, 0, 3], 4, [7]) : List ℕ × ℕ × List ℚ)
        = ((label_generator 3 se.1).1, (label_generator 3 se.1).2, se.2) := by
  have h := (exemplar_logits_aligned_when_pool_empty 3 1 0 [([3, 4], [7])] [0]).2
  have heval : exemplarBatch 3 1 0 (addExemplar [] [([3, 4], [7])]).1
      (addExemplar [] [([3, 4], [7])]).2 [0] = [([0, 0, 3], 4, [7])] := by
    simp [exemplarBatch, addExemplar, label_generator, writeLoop, List.getD,
      List.range_succ, List.range_zero]
  have hmem : (([0, 0, 3], 4, [7]) : List ℕ × ℕ × List ℚ) ∈ exemplarBatch 3 1 0
      (addExemplar [] [([3, 4], [7])]).1 (addExemplar [] [([3, 4], [7])]).2 [0] := by
    rw [heval]
    exact List.mem_singleton.mpr rfl
  exact ⟨hmem, h _ hmem⟩

/-! ### C9: split_data partitions the pool -/

theorem npRound_nonneg (q : ℚ) (h : 0 ≤ q) : 0 ≤ npRound q := by
  have hfl : 0 ≤ ⌊q⌋ := Int.floor_nonneg.mpr h
  unfold npRound
  split
  · omega
  · split
    · omega
    · split <;> omega

theorem npRound_le (q : ℚ) (n : ℤ) (h : q ≤ (n : ℚ)) : npRound q ≤ n := by
  have hfl : ⌊q⌋ ≤ n := by
    have h' := Int.floor_le_floor h
    simpa using h'
  have hq : (⌊q⌋ : ℚ) ≤ q := Int.floor_le q
  unfold npRound
  split
  · exact hfl
  · rename_i h2
    split
    · rename_i h3
      have hlt : ⌊q⌋ < n := by
        rcases lt_or_eq_of_le hfl with h' | h'
        · exact h'
        · exfalso
          have hc : (⌊q⌋ : ℚ) = (n : ℚ) := by exact_mod_cast h'
          linarith
      omega
    · rename_i h3
      split
      · exact hfl
      · have heq : q - ⌊q⌋ = 1 / 2 := by
          push_neg at h2 h3
          linarith
        have hlt : ⌊q⌋ < n := by
          have hcast : (⌊q⌋ : ℚ) < (n : ℚ) := by linarith
          exact_mod_cast hcast
        omega

theorem map_getD_range {α : Type} (l : List α) (d : α) :
    (List.range l.length).map (fun i => l.getD i d) = l := by
  apply List.ext_getElem
  · simp
  · intro i h1 h2
    simp [List.getD_eq_getElem?_getD, List.getElem?_eq_getElem h2]

/-- C9: for any `valid_portion` in `[0, 1]` and any shuffled permutation of
the pool positions, `split_data` partitions the pool: the validation and
training subsets come from disjoint index ranges of one permutation, their
sizes sum to the pool size, together they are a permutation of the pool, and
the sampler's new pool is exactly the training subset. -/
theorem split_data_partition :
    ∀ (pool : List (List ℕ)) (valid_portion : ℚ) (sidx : List ℕ),
      0 ≤ valid_portion → valid_portion ≤ 1 →
      List.Perm sidx (List.range pool.length) →
      (splitData pool valid_portion sidx).1.length
        + (splitData pool valid_portion sidx).2.1.length = pool.length ∧
      List.Perm ((splitData pool valid_portion sidx).1
        ++ (splitData pool valid_portion sidx).2.1) pool ∧
      (splitData pool valid_portion sidx).2.2
        = (splitData pool valid_portion sidx).2.1 := by
  intro pool vp sidx h0 h1 hperm
  have hlen : sidx.length = pool.length :=
    hperm.length_eq.trans (List.length_range _)
  have hq0 : 0 ≤ (pool.length : ℚ) * (1 - vp) := by
    apply mul_nonneg
    · exact_mod_cast Nat.zero_le _
    · linarith
  have hqle : (pool.length : ℚ) * (1 - vp) ≤ ((pool.length : ℤ) : ℚ) := by
    push_cast
    nlinarith [mul_nonneg (show (0 : ℚ) ≤ (pool.length : ℚ) from by exact_mod_cast Nat.zero_le _) h0]
  have hn0 : 0 ≤ npRound ((pool.length : ℚ) * (1 - vp)) := npRound_nonneg _ hq0
  have hnle : npRound ((pool.length : ℚ) * (1 - vp)) ≤ (pool.length : ℤ) :=
    npRound_le _ _ hqle
  simp only [splitData]
  set k := (npRound ((pool.length : ℚ) * (1 - vp))).toNat with hk
  have hnle' : k ≤ pool.length := by omega
  refine ⟨?_, ?_, ?_⟩
  · rw [List.length_map, List.length_map, List.length_drop, List.length_take]
    omega
  · have h2 : List.Perm (sidx.drop k ++ sidx.take k) sidx := by
      have hcomm : List.Perm (sidx.drop k ++ sidx.take k) (sidx.take k ++ sidx.drop k) :=
        List.perm_append_comm
      rw [List.take_append_drop] at hcomm
      exact hcomm
    have h3 := (h2.trans hperm).map (fun s => pool.getD s ([] : List ℕ))
    rw [List.map_append, map_getD_range pool []] at h3
    exact h3
  · trivial

/-- C9 witness: a 3-session pool split at `valid_portion = 1/2` under the
permutation `[2, 0, 1]`. -/
theorem split_data_partition_witness :
    (0 : ℚ) ≤ 1/2 ∧ (1 : ℚ)/2 ≤ 1 ∧ List.Perm [2, 0, 1] (List.range 3) ∧
    (splitData [[1], [2], [3]] (1/2) [2, 0, 1]).1.length
      + (splitData [[1], [2], [3]] (1/2) [2, 0, 1]).2.1.length = 3 := by
  have h := split_data_partition [[1], [2], [3]] (1/2) [2, 0, 1]
    (by norm_num) (by norm_num) (by decide)
  refine ⟨by norm_num, by norm_num, by decide, ?_⟩
  simpa using h.1

/-! ### C7: construction from empty data -/

/-- C7: building the generator's frequency table from empty data yields the
all-zero vector, whose normalization `item_prob` is produced with a zero sum
(in floating point, `0/0 = NaN`) and is not a probability vector, and the
multinomial quota draw still goes through silently (here allotting the whole
budget 3 to the clamped last category) — no domain error is raised anywhere
in the embedded constructor. -/
theorem empty_data_no_domain_error :
    itemFreqVec 5 2 [] [] 2 = [0, 0] ∧
    itemProb (itemFreqVec 5 2 [] [] 2) = [0, 0] ∧
    (itemProb (itemFreqVec 5 2 [] [] 2)).sum = 0 ∧
    quotaDraw (itemFreqVec 5 2 [] [] 2) false [0, 0, 0] = [0, 3] := by
  have h1 : itemFreqVec 5 2 [] [] 2 = [0, 0] := by
    simp [itemFreqVec, itemCountAt, exgenPairs, epochPairs, preparedData,
      batchNum, List.range_succ, List.range_zero]
  have hp : itemProb ([0, 0] : List ℚ) = [0, 0] := by
    norm_num [itemProb]
  have hcat : categorical [0, 0] 0 = 1 := by
    norm_num [categorical]
  refine ⟨h1, ?_, ?_, ?_⟩
  · rw [h1, hp]
  · rw [h1, hp]
    norm_num
  · rw [h1]
    show multinomialDraw
      (itemProb (if (false : Bool) then List.replicate ([0, 0] : List ℚ).length 1
        else ([0, 0] : List ℚ))) [0, 0, 0] = [0, 3]
    rw [if_neg (by simp), hp]
    unfold multinomialDraw
    have hmap : ([0, 0, 0] : List ℚ).map (categorical [0, 0]) = [1, 1, 1] := by
      simp [hcat]
    rw [hmap]
    decide

end ADER
